import Mathlib

/-!
Shallow embedding of the kilo-rust text editor core (src/syntax.rs,
src/editor.rs, src/read_key.rs) and proofs about it.

Strings are modelled as `List Char` (Rust `String` is a sequence of Unicode
scalar values).  Where the Rust code measures a string with `String::len`
(UTF-8 byte count) the model uses `byteLen`, the sum of `Char.utf8Size`,
which is the number of UTF-8 bytes Rust stores for the same scalar values.
Rust functions that can panic are modelled as `Option`-returning functions
with `none` on the panicking path.
-/

namespace Kilo


/-- UTF-8 byte length of a list of scalar values; models Rust `String::len`. -/
def byteLen (s : List Char) : Nat :=
  (s.map Char.utf8Size).sum

/-- The per-character classification tags of `syntax.rs` (`enum Highlight`). -/
inductive Highlight where
  | Normal
  | Comment
  | MultiLineComment
  | PrimaryKeyword
  | SecondaryKeyword
  | String
  | Number
  deriving DecidableEq, Repr

/-- `struct HighlightResult` of syntax.rs. -/
structure HighlightResult where
  highlight : List Highlight
  initial_state : Highlight
  ending_state : Highlight
  deriving DecidableEq, Repr

/-- `struct Syntax` of syntax.rs; the `HashSet<String>` fields are modelled as
lists, since the code only ever tests membership. -/
structure SynRules where
  file_extensions : List (List Char)
  primary_keywords : List (List Char)
  secondary_keywords : List (List Char)
  deriving DecidableEq, Repr

/-- The Unicode character-class predicates the highlighter calls
(`char::is_whitespace`, `is_numeric`, `is_alphabetic`, `is_alphanumeric`).
They are kept abstract so that theorems quantify over any classification;
`charClasses` below instantiates them. -/
structure CharClasses where
  isWhitespace : Char → Bool
  isNumeric : Char → Bool
  isAlphabetic : Char → Bool
  isAlphanumeric : Char → Bool

/-- Concrete instantiation of `CharClasses` by Lean's character predicates,
which agree with Rust's on the ASCII range (all concrete inputs used in the
theorems below are ASCII). -/
def charClasses : CharClasses :=
  { isWhitespace := Char.isWhitespace
    isNumeric := Char.isDigit
    isAlphabetic := Char.isAlpha
    isAlphanumeric := Char.isAlphanum }

/-- `multiline_comment_count` of syntax.rs: scans for the end of a multi-line
comment, returning the number of characters consumed and whether the comment
continues past the end of the input.  The Rust loop consumes characters one at
a time, except that on seeing `'*'` it immediately consumes the following
character as well: `Some('*')` then `Some('/')` returns, `Some('*')` then
`None` returns `(count+1, true)`, and `Some('*')` then any other character
adds 2 to the count.  The recursion below mirrors those three arms plus the
plain-character and end-of-input arms, accumulating the count on the way out
instead of in a mutable variable. -/
def multiline_comment_count : List Char → Nat × Bool
  | [] => (0, true)
  | '*' :: rest =>
    match rest with
    | [] => (1, true)
    | '/' :: _ => (2, false)
    | _ :: rest2 =>
      let r := multiline_comment_count rest2
      (r.1 + 2, r.2)
  | _ :: rest =>
    let r := multiline_comment_count rest
    (r.1 + 1, r.2)

/-- The string-literal scanning loop inside `Syntax::highlight` (the
quote-character match arm).  Given the quote character and the input after the
opening quote, returns how many further characters the loop consumes: each
character counts 1, a backslash also consumes (and counts) the escaped
character, and the loop stops after an unescaped closing quote or at end of
input. -/
def string_scan (q : Char) : List Char → Nat
  | [] => 0
  | c :: rest =>
    if c = '\\' then
      match rest with
      | [] => 1
      | _ :: rest2 => 2 + string_scan q rest2
    else if c = q then 1
    else 1 + string_scan q rest

/-- `read_pred` of syntax.rs, specialised to the one predicate it is called
with (`is_alphanumeric() || ch == '_'`): take the maximal run of
identifier-continuation characters. -/
def read_pred (cc : CharClasses) (s : List Char) : List Char :=
  s.takeWhile (fun c => cc.isAlphanumeric c || c = '_')

/-- The main token loop of `Syntax::highlight` (the `loop` over `peek 2`).
The `fuel` argument bounds the number of iterations; every iteration of the
Rust loop consumes at least one character, so `fuel = input length` makes the
fuel-exhaustion arm unreachable (the wrapper `highlight` calls it that way).
Returns the classification tags pushed by the loop together with whether
`ending_state` was set to `MultiLineComment` (which the Rust code does exactly
in the unterminated `/*` arm). -/
def highlightLoopF (syn : SynRules) (cc : CharClasses) :
    Nat → List Char → List Highlight × Bool
  | _, [] => ([], false)
  | 0, _ :: _ => ([], false)
  | fuel + 1, c1 :: rest =>
    if cc.isWhitespace c1 then
      let r := highlightLoopF syn cc fuel rest
      (Highlight.Normal :: r.1, r.2)
    else if cc.isNumeric c1 then
      let r := highlightLoopF syn cc fuel rest
      (Highlight.Number :: r.1, r.2)
    else if c1 = '.' ∧ rest.head?.any cc.isNumeric then
      let r := highlightLoopF syn cc fuel rest
      (Highlight.Number :: r.1, r.2)
    else if cc.isAlphabetic c1 then
      let token := read_pred cc (c1 :: rest)
      let cls :=
        if syn.primary_keywords.contains token then Highlight.PrimaryKeyword
        else if syn.secondary_keywords.contains token then Highlight.SecondaryKeyword
        else Highlight.Normal
      let r := highlightLoopF syn cc fuel ((c1 :: rest).drop token.length)
      (List.replicate token.length cls ++ r.1, r.2)
    else if c1 = '\'' ∨ c1 = '"' then
      let n := string_scan c1 rest
      let r := highlightLoopF syn cc fuel (rest.drop n)
      (List.replicate (1 + n) Highlight.String ++ r.1, r.2)
    else if c1 = '/' ∧ rest.head? = some '/' then
      (List.replicate (c1 :: rest).length Highlight.Comment, false)
    else if c1 = '/' ∧ rest.head? = some '*' then
      let m := multiline_comment_count (rest.drop 1)
      let r := highlightLoopF syn cc fuel ((rest.drop 1).drop m.1)
      (List.replicate (2 + m.1) Highlight.MultiLineComment ++ r.1, m.2 || r.2)
    else
      let r := highlightLoopF syn cc fuel rest
      (Highlight.Normal :: r.1, r.2)

/-- `Syntax::highlight` of syntax.rs.  `none` models the
`panic!("initial_state must be MultiLineComment or Normal")` branch.  For
`initial_state = MultiLineComment` the input is first consumed by
`multiline_comment_count`; `ending_state` is `MultiLineComment` exactly when
either that initial scan or an unterminated `/*` in the token loop set it. -/
def highlight (syn : SynRules) (cc : CharClasses) (initial_state : Highlight)
    (s : List Char) : Option HighlightResult :=
  match initial_state with
  | Highlight.MultiLineComment =>
    let m := multiline_comment_count s
    let rest := s.drop m.1
    let r := highlightLoopF syn cc rest.length rest
    some { highlight := List.replicate m.1 Highlight.MultiLineComment ++ r.1
           initial_state := Highlight.MultiLineComment
           ending_state :=
             if m.2 || r.2 then Highlight.MultiLineComment else Highlight.Normal }
  | Highlight.Normal =>
    let r := highlightLoopF syn cc s.length s
    some { highlight := r.1
           initial_state := Highlight.Normal
           ending_state := if r.2 then Highlight.MultiLineComment else Highlight.Normal }
  | _ => none

/-- Helper to write keyword sets: list of strings to list of scalar lists. -/
def strs (l : List String) : List (List Char) :=
  l.map String.toList

/-- `make_rust_syntax` of syntax.rs, with the `u`/`i`-prefix loop over
suffixes `8, 16, 32, 64, size` written out. -/
def rustRules : SynRules :=
  { file_extensions := strs [".rs"]
    primary_keywords := strs
      ["as", "break", "const", "continue", "crate", "else",
       "enum", "extern", "false", "fn", "for", "if", "impl",
       "in", "let", "loop", "match", "mod", "move", "mut", "pub",
       "ref", "return", "Self", "self", "static", "struct",
       "trait", "true", "type", "unsafe", "use", "where", "while"]
    secondary_keywords := strs
      ["float", "str", "char", "bool", "f32", "f64",
       "u8", "u16", "u32", "u64", "usize",
       "i8", "i16", "i32", "i64", "isize"] }

/-- A carry state is one of the two values that may legally be passed between
lines (`Normal` or `MultiLineComment`). -/
def validCarry (h : Highlight) : Prop :=
  h = Highlight.Normal ∨ h = Highlight.MultiLineComment

/-- The cross-line chaining that `Editor::update_row` performs, run from
scratch: line 0 is evaluated with the given carry (`Normal` at the top-level
call), every later line with the previous line's `ending_state`.  `none`
would mean the highlighter's panic branch was reached. -/
def chainHighlight (syn : SynRules) (cc : CharClasses) :
    Highlight → List (List Char) → Option (List HighlightResult)
  | _, [] => some []
  | carry, l :: ls =>
    match highlight syn cc carry l with
    | none => none
    | some r => (chainHighlight syn cc r.ending_state ls).map (r :: ·)

/-- `struct Pos` of editor.rs (field order `x`, `y`; both `usize`). -/
structure Pos where
  x : Nat
  y : Nat
  deriving DecidableEq, Repr

/-- The `pos` helper function of editor.rs. -/
def pos (x y : Nat) : Pos :=
  { x := x, y := y }

/-- `struct Delta` of editor.rs (`dx`, `dy` are `isize`). -/
structure Delta where
  dx : Int
  dy : Int
  deriving DecidableEq, Repr

/-- The `delta` helper function of editor.rs. -/
def delta (dx dy : Int) : Delta :=
  { dx := dx, dy := dy }

/-- `uclamp` of editor.rs: `isize` to `usize`, clamping negatives to zero. -/
def uclamp (a : Int) : Nat :=
  a.toNat

/-- The loop body of `Row::update`: fold over the characters of `text`,
pushing each one onto `render`, except that a tab pushes one space and then
keeps pushing spaces while `self.render.len() % 8 != 0`.  `String::len` is
the UTF-8 byte count and each pushed space is exactly one byte, so the while
loop runs `(8 - byteLen acc1 % 8) % 8` times, which the model adds in one
step. -/
def renderAux (acc : List Char) : List Char → List Char
  | [] => acc
  | ch :: rest =>
    if ch = '\t' then
      let acc1 := acc ++ [' ']
      renderAux (acc1 ++ List.replicate ((8 - byteLen acc1 % 8) % 8) ' ') rest
    else
      renderAux (acc ++ [ch]) rest

/-- The render string computed by `Row::update` from a cleared `render`. -/
def rowRender (text : List Char) : List Char :=
  renderAux [] text

/-- `struct Row` of editor.rs. -/
structure Row where
  text : List Char
  render : List Char
  highlight : Option HighlightResult
  deriving DecidableEq, Repr

/-- `Row::new()` (`Default::default()`): empty strings, no highlight. -/
def rowNew : Row :=
  { text := [], render := [], highlight := none }

/-- `Row::update` of editor.rs: store the text, recompute `render`, discard
the cached highlight.  The resulting row does not depend on the old row. -/
def row_update (text : List Char) : Row :=
  { text := text, render := rowRender text, highlight := none }

/-- `struct Editor` of editor.rs, restricted to the fields the modelled
operations read or write (`orig_termios`, `file_path` and `status_msg` are
irrelevant to them). -/
structure Editor where
  cursor : Pos
  offset : Pos
  screen : Pos
  rows : List Row
  synOpt : Option SynRules
  deriving DecidableEq, Repr

/-- `Editor::fixup`: clamp `pos.x` to `rows[pos.y].text.len()` (UTF-8 byte
length) when that row exists and `pos.x` exceeds it; `pos.y` is untouched. -/
def fixup (e : Editor) (p : Pos) : Pos :=
  match e.rows[p.y]? with
  | some row => if byteLen row.text < p.x then { x := byteLen row.text, y := p.y } else p
  | none => p

/-- `Editor::scroll_to`: adjust `offset.y` so that line `pos.y` is inside the
visible window. -/
def scroll_to (e : Editor) (p : Pos) : Editor :=
  if p.y < e.offset.y then
    { e with offset := { e.offset with y := p.y } }
  else if e.offset.y + e.screen.y ≤ p.y then
    { e with offset := { e.offset with y := p.y - e.screen.y + 1 } }
  else
    e

/-- `Editor::move_cursor_to`: clamp `pos.y` into the buffer (to 0 when the
buffer is empty), scroll, then commit the cursor.  `x` is not fixed up. -/
def move_cursor_to (e : Editor) (p : Pos) : Editor :=
  let p :=
    if e.rows.length ≤ p.y then
      if e.rows.length = 0 then { p with y := 0 }
      else { p with y := e.rows.length - 1 }
    else p
  let e := scroll_to e p
  { e with cursor := p }

/-- `Editor::move_cursor_by`: fix up before and after adding the delta, but
only when `dx != 0`; the addition saturates at zero on both axes. -/
def move_cursor_by (e : Editor) (d : Delta) : Editor :=
  let p0 := if d.dx ≠ 0 then fixup e e.cursor else e.cursor
  let nc := pos (uclamp ((p0.x : Int) + d.dx)) (uclamp ((p0.y : Int) + d.dy))
  let nc := if d.dx ≠ 0 then fixup e nc else nc
  move_cursor_to e nc

/-- The block of spaces that one tab contributes when the render string holds
`col` bytes so far: one space, then spaces up to the next multiple of 8
bytes.  (Reference definition for the amended C3; compare `renderAux`.) -/
def tabPad (col : Nat) : List Char :=
  ' ' :: List.replicate ((8 - (col + 1) % 8) % 8) ' '

/-- Modelled from the spec, amended: the tab-expansion pass re-expressed as a
left-to-right scan that tracks the current column in UTF-8 bytes.  A tab
emits `tabPad col`; any other character passes through unchanged and advances
the column by its own byte size. -/
def renderSpec (col : Nat) : List Char → List Char
  | [] => []
  | c :: rest =>
    if c = '\t' then tabPad col ++ renderSpec (col + byteLen (tabPad col)) rest
    else c :: renderSpec (col + c.utf8Size) rest

/-- A concrete editor whose single line holds the two-byte character `é`. -/
def eC4 : Editor :=
  { cursor := pos 0 0, offset := pos 0 0, screen := pos 80 22,
    rows := [row_update "é".toList], synOpt := some rustRules }

/-- A concrete editor matching the spec's sticky-column example: line 0 has
character length 3, line 1 is longer, and the cursor starts at `(10, 0)`. -/
def eC6 : Editor :=
  { cursor := pos 10 0, offset := pos 0 0, screen := pos 80 22,
    rows := [row_update "abc".toList, row_update "abcdefghijklmnop".toList],
    synOpt := some rustRules }

/-- One poll of the terminal input in read_key.rs: either a byte arrives or
the bounded read times out with no data (`stream.read` returning 0 bytes).
The input stream is modelled as the list of successive poll outcomes. -/
inductive Poll where
  | byte (b : Nat)
  | timeout
  deriving DecidableEq, Repr

/-- `enum Key` of read_key.rs. -/
inductive Key where
  | Char (b : Nat)
  | Esc
  | Del
  | PageUp
  | PageDown
  | ArrowUp
  | ArrowDown
  | ArrowRight
  | ArrowLeft
  | Home
  | End
  deriving DecidableEq, Repr

/-- `enum Escape` of read_key.rs. -/
inductive Escape where
  | Char (b : Nat)
  | Esc
  | CSI (seq : List Nat)
  | SS3 (b : Nat)
  | InvalidEscape
  deriving DecidableEq, Repr

/-- `maybe_read_byte`: one poll; `none` on timeout (or exhausted stream). -/
def maybe_read_byte : List Poll → Option Nat × List Poll
  | [] => (none, [])
  | Poll.byte b :: rest => (some b, rest)
  | Poll.timeout :: rest => (none, rest)

/-- `read_byte`: poll until a byte shows up.  `none` models blocking forever
on a stream that never delivers another byte. -/
def read_byte : List Poll → Option (Nat × List Poll)
  | [] => none
  | Poll.byte b :: rest => some (b, rest)
  | Poll.timeout :: rest => read_byte rest

/-- `read_csi` of read_key.rs: accumulate bytes into `buf` until a final byte
in the inclusive range `[64, 126]` arrives (`(64...126).contains(byte)`); a
timeout inside the loop degrades to a lone `Esc`. -/
def read_csi (buf : List Nat) : List Poll → Escape × List Poll
  | [] => (Escape.Esc, [])
  | Poll.timeout :: rest => (Escape.Esc, rest)
  | Poll.byte b :: rest =>
    if 64 ≤ b ∧ b ≤ 126 then (Escape.CSI (buf ++ [b]), rest)
    else read_csi (buf ++ [b]) rest

/-- `read_ss3` of read_key.rs: read exactly one more byte. -/
def read_ss3 : List Poll → Escape × List Poll
  | [] => (Escape.Esc, [])
  | Poll.timeout :: rest => (Escape.Esc, rest)
  | Poll.byte b :: rest => (Escape.SS3 b, rest)

/-- `read_escape` of read_key.rs (byte 27 is ESC, 91 is `[`, 79 is `O`). -/
def read_escape (s : List Poll) : Option (Escape × List Poll) :=
  match read_byte s with
  | none => none
  | some (b, rest) =>
    if b = 27 then
      match maybe_read_byte rest with
      | (some b2, rest2) =>
        if b2 = 91 then some (read_csi [] rest2)
        else if b2 = 79 then some (read_ss3 rest2)
        else some (Escape.InvalidEscape, rest2)
      | (none, rest2) => some (Escape.Esc, rest2)
    else some (Escape.Char b, rest)

/-- `Escape::interpret` of read_key.rs.  The CSI arm compares the
accumulated byte sequence against the nine recognised sequences
(`"3~"`, `"5~"`, `"6~"`, `"A"`, `"B"`, `"C"`, `"D"`, `"H"`, `"F"`). -/
def interpret : Escape → Option Key
  | Escape.Char b => some (Key.Char b)
  | Escape.Esc => some Key.Esc
  | Escape.CSI seq =>
    if seq = [51, 126] then some Key.Del
    else if seq = [53, 126] then some Key.PageUp
    else if seq = [54, 126] then some Key.PageDown
    else if seq = [65] then some Key.ArrowUp
    else if seq = [66] then some Key.ArrowDown
    else if seq = [67] then some Key.ArrowRight
    else if seq = [68] then some Key.ArrowLeft
    else if seq = [72] then some Key.Home
    else if seq = [70] then some Key.End
    else none
  | Escape.SS3 b =>
    if b = 72 then some Key.Home
    else if b = 70 then some Key.End
    else none
  | Escape.InvalidEscape => none

/-- First character index at which `q` occurs in `s` (Rust `str::find`
restated over characters: the least index whose suffix starts with `q`). -/
def firstMatchIdx : List Char → List Char → Option Nat
  | s, q =>
    if q.isPrefixOf s then some 0
    else
      match s with
      | [] => none
      | _ :: rest => (firstMatchIdx rest q).map (fun i => i + 1)

/-- `find_char` of editor.rs: `char_indices().nth(from_char)` yields `none`
when `from_char` is at least the character length (so there is no match, even
for an empty query); otherwise search the suffix and re-offset the result. -/
def find_char (s q : List Char) (from_char : Nat) : Option Nat :=
  if from_char < s.length then
    (firstMatchIdx (s.drop from_char) q).map (fun i => i + from_char)
  else none

/-- Last character index at which `q` occurs in `s` (Rust `str::rfind` over
characters: the greatest index whose suffix starts with `q`).  For an empty
`q` this is `s.length`, matching `rfind` returning the byte length. -/
def lastMatchIdx : List Char → List Char → Option Nat
  | [], q => if q.isPrefixOf ([] : List Char) then some 0 else none
  | c :: rest, q =>
    match lastMatchIdx rest q with
    | some i => some (i + 1)
    | none => if q.isPrefixOf (c :: rest) then some 0 else none

/-- `rfind_char` of editor.rs.  The outer `none` is the panicking path: when
`rfind` returns the byte index one past the end of the slice (which happens
exactly for an empty query on a slice), the
`.position(...).expect("byte did not correspond to char")` lookup fails.
`some none` is "no match", `some (some i)` a match at character index `i`. -/
def rfind_char (s q : List Char) (to_char : Nat) : Option (Option Nat) :=
  if to_char < s.length then
    match lastMatchIdx (s.take to_char) q with
    | none => some none
    | some i => if i < (s.take to_char).length then some (some i) else none
  else some none

/-- `Editor::search_forward` with explicit iteration fuel.  Each loop
iteration either returns or advances `cursor.y` by one, so `rows.length`
iterations always suffice; the fuel-exhaustion arm returning `none` is
unreachable from the wrapper `search_forward`.  The unconditional
`self.rows[y]` indexing is modelled by `e.rows[e.cursor.y]?` with `none` for
the out-of-bounds panic. -/
def search_forwardF : Nat → Editor → List Char → Option (Bool × Editor)
  | fuel, e, q =>
    match e.rows[e.cursor.y]? with
    | none => none
    | some row =>
      match find_char row.text q e.cursor.x with
      | some idx => some (true, move_cursor_to e (pos idx e.cursor.y))
      | none =>
        if e.cursor.y + 1 = e.rows.length then some (false, e)
        else
          match fuel with
          | 0 => none
          | fuel1 + 1 => search_forwardF fuel1 (move_cursor_to e (pos 0 (e.cursor.y + 1))) q

/-- `Editor::search_forward` of editor.rs. -/
def search_forward (e : Editor) (q : List Char) : Option (Bool × Editor) :=
  search_forwardF e.rows.length e q

/-- `Editor::search_backward` with explicit iteration fuel; each iteration
either returns or decrements `cursor.y`, so `cursor.y + 1` iterations always
suffice.  `self.rows[y - 1].text.chars().count()` is the character length of
the line above; `saturating_sub(1)` is truncated subtraction. -/
def search_backwardF : Nat → Editor → List Char → Option (Bool × Editor)
  | fuel, e, q =>
    match e.rows[e.cursor.y]? with
    | none => none
    | some row =>
      match rfind_char row.text q e.cursor.x with
      | none => none
      | some (some idx) => some (true, move_cursor_to e (pos idx e.cursor.y))
      | some none =>
        if e.cursor.y = 0 then some (false, e)
        else
          match e.rows[e.cursor.y - 1]? with
          | none => none
          | some upper =>
            match fuel with
            | 0 => none
            | fuel1 + 1 =>
              search_backwardF fuel1
                (move_cursor_to e (pos (upper.text.length - 1) (e.cursor.y - 1))) q

/-- `Editor::search_backward` of editor.rs. -/
def search_backward (e : Editor) (q : List Char) : Option (Bool × Editor) :=
  search_backwardF (e.cursor.y + 1) e q

/-- The search-dispatch tail of each `Editor::find` loop iteration: remember
`tmp_cursor`, move right one column first when `direction > 0`, run the
forward search when `direction >= 0` and the backward search otherwise, and
restore the cursor via `move_cursor_to tmp_cursor` when the search failed. -/
def searchStep (e : Editor) (q : List Char) (direction : Int) : Option Editor :=
  let tmp := e.cursor
  let res :=
    if 0 ≤ direction then
      search_forward (if 0 < direction then move_cursor_by e (delta 1 0) else e) q
    else
      search_backward e q
  match res with
  | none => none
  | some (found, e2) => some (if found then e2 else move_cursor_to e2 tmp)

/-- An editor as produced by `Editor::new` followed by opening an empty file:
no rows, cursor at `(1, 0)`. -/
def eEmpty : Editor :=
  { cursor := pos 1 0, offset := pos 0 0, screen := pos 80 22,
    rows := [], synOpt := some rustRules }

/-- Split a scalar list at a UTF-8 byte offset.  `none` when the offset is
inside a multi-byte character or beyond the end: Rust byte slicing
(`&s[..x]`, `&s[x..]`) and `String::insert` panic in exactly those cases. -/
def splitAtByte : List Char → Nat → Option (List Char × List Char)
  | s, 0 => some ([], s)
  | [], _ + 1 => none
  | c :: rest, b + 1 =>
    if b + 1 < c.utf8Size then none
    else
      match splitAtByte rest (b + 1 - c.utf8Size) with
      | some (l, r) => some (c :: l, r)
      | none => none

/-- `String::insert(b, ch)` at byte offset `b`; panics modelled as `none`. -/
def insertAtByte (s : List Char) (b : Nat) (ch : Char) : Option (List Char) :=
  match splitAtByte s b with
  | some (l, r) => some (l ++ ch :: r)
  | none => none

/-- `String::remove(b)` at byte offset `b`: removes the character starting
there; panics (`none`) when `b` is not the start of a character. -/
def removeAtByte (s : List Char) (b : Nat) : Option (List Char) :=
  match splitAtByte s b with
  | some (l, _ :: r) => some (l ++ r)
  | _ => none

/-- `Vec::insert(i, a)`: panics (`none`) when `i > len`. -/
def vecInsert {α : Type} (l : List α) (i : Nat) (a : α) : Option (List α) :=
  if i ≤ l.length then some (l.take i ++ a :: l.drop i) else none

/-- `Editor::row_needs_rehighlight` at one position of the scan, with
`prevRow?` the row above (`none` when the position is line 0).  The result is
`none` for the `panic!("row highlighted before above row")` branch.  (The
early `return false` when the editor has no syntax is handled by the caller:
the scan only runs under `if let Some(ref syntax) = self.syntax`.) -/
def needsRehighlight (prevRow? : Option Row) (r : Row) : Option Bool :=
  match prevRow? with
  | none => some r.highlight.isNone
  | some pr =>
    match r.highlight, pr.highlight with
    | some h, some h2 => some (if h.initial_state = h2.ending_state then false else true)
    | some _, none => none
    | none, _ => some true

/-- The `init_state` computed inside `Editor::update_row`'s scan: the
previous row's `ending_state`, or `Normal` at line 0 or when the row above
has no cached highlight. -/
def initStateFor (prevRow? : Option Row) : Highlight :=
  match prevRow? with
  | none => Highlight.Normal
  | some pr =>
    match pr.highlight with
    | some h => h.ending_state
    | none => Highlight.Normal

/-- The scan loop of `Editor::update_row`, from some index to the end of the
buffer, expressed as a recursion over the remaining rows with the row just
above threaded through (`none` at line 0): recompute a row's highlight when
`row_needs_rehighlight` says so, then continue with the (possibly updated)
row as the new row-above. -/
def rehighlightFrom (syn : SynRules) (cc : CharClasses) :
    Option Row → List Row → Option (List Row)
  | _, [] => some []
  | prevRow?, r :: rest =>
    match needsRehighlight prevRow? r with
    | none => none
    | some needs =>
      match
        (if needs then
          match highlight syn cc (initStateFor prevRow?) r.render with
          | some hr => some { r with highlight := some hr }
          | none => none
        else some r) with
      | none => none
      | some r2 =>
        match rehighlightFrom syn cc (some r2) rest with
        | none => none
        | some rest2 => some (r2 :: rest2)

/-- `Editor::update_row`: replace row `index` (panic, `none`, when out of
bounds), then — when a syntax is configured — run the rehighlight scan from
`index` to the end of the buffer. -/
def update_row (cc : CharClasses) (e : Editor) (index : Nat) (text : List Char) :
    Option Editor :=
  if index < e.rows.length then
    let rows1 := e.rows.set index (row_update text)
    match e.synOpt with
    | none => some { e with rows := rows1 }
    | some syn =>
      let prevRow? := if index = 0 then none else rows1[index - 1]?
      match rehighlightFrom syn cc prevRow? (rows1.drop index) with
      | none => none
      | some suffix2 => some { e with rows := rows1.take index ++ suffix2 }
  else none

/-- `Editor::ensure_line_exists`: push empty rows until
`rows.len() > cursor.y`. -/
def ensure_line_exists (e : Editor) : Editor :=
  { e with rows := e.rows ++ List.replicate (e.cursor.y + 1 - e.rows.length) rowNew }

/-- `Editor::insert_char`: the `assert!(ch != '\n')` panic, the byte-offset
string insertion and the row indexing are all modelled as `none`. -/
def insert_char (cc : CharClasses) (e : Editor) (ch : Char) : Option Editor :=
  if ch = '\n' then none
  else
    let e1 := ensure_line_exists e
    let cf := fixup e1 e1.cursor
    match e1.rows[e1.cursor.y]? with
    | none => none
    | some row =>
      match insertAtByte row.text cf.x ch with
      | none => none
      | some t =>
        match update_row cc e1 e1.cursor.y t with
        | none => none
        | some e2 => some { e2 with cursor := { e2.cursor with x := e2.cursor.x + 1 } }

/-- `Editor::insert_newline`: split the current line at the fixed-up byte
offset, update the left part in place, insert a fresh row below and update
it with the right part, then move to the start of the new row. -/
def insert_newline (cc : CharClasses) (e : Editor) : Option Editor :=
  let e1 := ensure_line_exists e
  let p := fixup e1 e1.cursor
  match e1.rows[p.y]? with
  | none => none
  | some row =>
    match splitAtByte row.text p.x with
    | none => none
    | some (left, right) =>
      match update_row cc e1 p.y left with
      | none => none
      | some e2 =>
        match vecInsert e2.rows (p.y + 1) rowNew with
        | none => none
        | some rows3 =>
          match update_row cc { e2 with rows := rows3 } (p.y + 1) right with
          | none => none
          | some e4 => some (move_cursor_to e4 (pos 0 (p.y + 1)))

/-- `Editor::backspace`: at the start of a line (and not line 0) join the
line onto the previous one; otherwise remove the character before the
cursor's fixed-up byte offset. -/
def backspace (cc : CharClasses) (e : Editor) : Option Editor :=
  let e1 := ensure_line_exists e
  let p := fixup e1 e1.cursor
  if p.x = 0 then
    if p.y = 0 then some e1
    else
      match e1.rows[p.y]?, e1.rows[p.y - 1]? with
      | some lower, some upper =>
        let new_x := byteLen upper.text
        let e2 := { e1 with rows := e1.rows.eraseIdx p.y }
        match update_row cc e2 (p.y - 1) (upper.text ++ lower.text) with
        | none => none
        | some e3 => some (move_cursor_to e3 (pos new_x (p.y - 1)))
      | _, _ => none
  else
    match e1.rows[p.y]? with
    | none => none
    | some row =>
      match removeAtByte row.text (p.x - 1) with
      | none => none
      | some t =>
        match update_row cc e1 p.y t with
        | none => none
        | some e2 => some (move_cursor_to e2 (pos (p.x - 1) p.y))

/-- `Editor::open`: clear the row list, then for each input line push a fresh
row and run `update_row` on it. -/
def openBuffer (cc : CharClasses) (e : Editor) (lines : List (List Char)) :
    Option Editor :=
  lines.foldlM
    (fun acc line =>
      let acc1 := { acc with rows := acc.rows ++ [rowNew] }
      update_row cc acc1 (acc1.rows.length - 1) line)
    { e with rows := [] }

/-- A buffer mutation (or cursor move) the editor can perform. -/
inductive Op where
  | insertChar (ch : Char)
  | newline
  | backspaceOp
  | updateRow (index : Nat) (text : List Char)
  | openOp (lines : List (List Char))
  | moveBy (d : Delta)
  | moveTo (p : Pos)

/-- Apply one operation. -/
def applyOp (cc : CharClasses) (e : Editor) : Op → Option Editor
  | Op.insertChar ch => insert_char cc e ch
  | Op.newline => insert_newline cc e
  | Op.backspaceOp => backspace cc e
  | Op.updateRow i t => update_row cc e i t
  | Op.openOp lines => openBuffer cc e lines
  | Op.moveBy d => some (move_cursor_by e d)
  | Op.moveTo p => some (move_cursor_to e p)

/-- Apply a sequence of operations. -/
def applyOps (cc : CharClasses) (e : Editor) (ops : List Op) : Option Editor :=
  ops.foldlM (applyOp cc) e

/-- The carry a row's highlight is expected to start from, given the stored
highlight of the row above (`none` also for line 0). -/
def expectedInit : Option HighlightResult → Highlight
  | some h => h.ending_state
  | none => Highlight.Normal

/-- The highlight-chain invariant over a row list, threading the previous
row's stored highlight: every row that has a cached highlight starts from the
expected carry (the row above's `ending_state`, or `Normal` at line 0 or
below an unhighlighted row) and ends in a legal carry state. -/
def ChainOkW : Option HighlightResult → List Row → Prop
  | _, [] => True
  | prev, r :: rest =>
    (∀ h, r.highlight = some h →
      h.initial_state = expectedInit prev ∧ validCarry h.ending_state) ∧
    ChainOkW r.highlight rest

/-- The carry left after a row list: the last row's stored highlight, or the
incoming carry when the list is empty. -/
def lastHL (p : Option HighlightResult) (l : List Row) : Option HighlightResult :=
  match l.getLast? with
  | some r => r.highlight
  | none => p

/-- The state the editor keeps across mutations: a fixed syntax ruleset and a
chained highlight cache. -/
def GoodEd (syn : SynRules) (e : Editor) : Prop :=
  e.synOpt = some syn ∧ ChainOkW none e.rows

/-- The editor right after `Editor::new`: empty buffer, cursor at `(1, 0)`,
the Rust syntax ruleset installed. -/
def eInit : Editor :=
  { cursor := pos 1 0, offset := pos 0 0, screen := pos 80 22,
    rows := [], synOpt := some rustRules }

/-- The editor after opening the one-line file `"a"` in `eInit`. -/
def eC2out : Editor :=
  { cursor := pos 1 0, offset := pos 0 0, screen := pos 80 22,
    rows := [{ text := ['a'], render := ['a'],
               highlight := some { highlight := [Highlight.Normal],
                                   initial_state := Highlight.Normal,
                                   ending_state := Highlight.Normal } }],
    synOpt := some rustRules }

theorem highlight_ending_valid (syn : SynRules) (cc : CharClasses)
    (init : Highlight) (s : List Char) (r : HighlightResult)
    (h : highlight syn cc init s = some r) : validCarry r.ending_state := by
  cases init <;> simp [highlight] at h <;>
    (subst h; unfold validCarry; dsimp only; split <;> simp)

theorem highlight_initial_eq (syn : SynRules) (cc : CharClasses)
    (init : Highlight) (s : List Char) (r : HighlightResult)
    (h : highlight syn cc init s = some r) : r.initial_state = init := by
  cases init <;> simp [highlight] at h <;> subst h <;> rfl

theorem highlight_isSome_of_validCarry (syn : SynRules) (cc : CharClasses)
    (init : Highlight) (s : List Char) (h : validCarry init) :
    (highlight syn cc init s).isSome = true := by
  rcases h with h | h <;> subst h <;> simp [highlight]

theorem chainHighlight_isSome (syn : SynRules) (cc : CharClasses)
    (lines : List (List Char)) (carry : Highlight) (h : validCarry carry) :
    (chainHighlight syn cc carry lines).isSome = true := by
  induction lines generalizing carry with
  | nil => simp [chainHighlight]
  | cons l ls ih =>
    have hs := highlight_isSome_of_validCarry syn cc carry l h
    obtain ⟨r, hr⟩ := Option.isSome_iff_exists.mp hs
    have hv := highlight_ending_valid syn cc carry l r hr
    simp [chainHighlight, hr, ih r.ending_state hv]

/-- C10: for every input text and carry-in state accepted by the highlighter,
the produced `ending_state` is either `Normal` or `MultiLineComment`; the
highlighter succeeds (does not reach its panic branch) for both of those
carry-in states, and hence chaining each line's carry-in from the previous
line's ending state (starting from `Normal` at line 0) never reaches the
panic branch, for any line list, ruleset and character classification. -/
theorem claim_C10_ending_state_valid (syn : SynRules) (cc : CharClasses)
    (init : Highlight) (s : List Char) :
    (∀ r, highlight syn cc init s = some r → validCarry r.ending_state) ∧
    (validCarry init → (highlight syn cc init s).isSome = true) ∧
    (∀ lines, (chainHighlight syn cc Highlight.Normal lines).isSome = true) :=
  ⟨fun r h => highlight_ending_valid syn cc init s r h,
   fun h => highlight_isSome_of_validCarry syn cc init s h,
   fun lines => chainHighlight_isSome syn cc lines Highlight.Normal (Or.inl rfl)⟩

/-- Witness for C10 at a concrete ruleset, classes, carry and text. -/
theorem claim_C10_ending_state_valid_witness :
    (highlight rustRules charClasses Highlight.Normal "/* a".toList).isSome = true ∧
    (chainHighlight rustRules charClasses Highlight.Normal
      ["/* a".toList, "b */".toList]).isSome = true :=
  ⟨(claim_C10_ending_state_valid rustRules charClasses Highlight.Normal
      "/* a".toList).2.1 (Or.inl rfl),
   (claim_C10_ending_state_valid rustRules charClasses Highlight.Normal
      "x".toList).2.2 ["/* a".toList, "b */".toList]⟩

/-- C1 (code bug): with `carry_in = InComment` and the line `"**/x"`, the
first occurrence of the terminator `*/` is at characters 1-2, so the claim
says characters 0-2 are `MultiLineComment`, `x` is then scanned normally, and
`carry_out = Normal`.  The code instead consumes the character after each `*`
unconditionally, misses that terminator, classifies all four characters as
`MultiLineComment` and reports `carry_out = InComment`. -/
theorem claim_C1_terminator_missed :
    "**/x".toList.take 3 = ['*', '*', '/'] ∧
    highlight rustRules charClasses Highlight.MultiLineComment "**/x".toList =
      some { highlight := List.replicate 4 Highlight.MultiLineComment
             initial_state := Highlight.MultiLineComment
             ending_state := Highlight.MultiLineComment } ∧
    multiline_comment_count "**/x".toList = (4, true) := by
  decide

@[simp]
theorem byteLen_nil : byteLen [] = 0 := rfl

@[simp]
theorem byteLen_cons (c : Char) (s : List Char) :
    byteLen (c :: s) = c.utf8Size + byteLen s := by
  simp [byteLen]

@[simp]
theorem byteLen_append (s t : List Char) :
    byteLen (s ++ t) = byteLen s + byteLen t := by
  simp [byteLen]

@[simp]
theorem byteLen_replicate_space (n : Nat) : byteLen (List.replicate n ' ') = n := by
  have hsp : ' '.utf8Size = 1 := by decide
  induction n with
  | zero => rfl
  | succ n ih => simp [List.replicate_succ, ih, hsp]; omega

theorem renderAux_no_tab (t : List Char) :
    ∀ acc, (∀ c ∈ acc, c ≠ '\t') → ∀ c ∈ renderAux acc t, c ≠ '\t' := by
  induction t with
  | nil => intro acc hacc; simpa [renderAux] using hacc
  | cons ch rest ih =>
    intro acc hacc
    by_cases hch : ch = '\t'
    · simp only [renderAux, hch, if_pos rfl]
      apply ih
      intro c hc
      rcases List.mem_append.mp hc with hc | hc
      · rcases List.mem_append.mp hc with hc | hc
        · exact hacc c hc
        · simp at hc; simp [hc]
      · rw [List.eq_of_mem_replicate hc]; simp
    · simp only [renderAux, if_neg hch]
      apply ih
      intro c hc
      rcases List.mem_append.mp hc with hc | hc
      · exact hacc c hc
      · simp at hc; simpa [hc] using hch

theorem renderAux_of_no_tab (t : List Char) :
    ∀ acc, (∀ c ∈ t, c ≠ '\t') → renderAux acc t = acc ++ t := by
  induction t with
  | nil => intro acc _; simp [renderAux]
  | cons ch rest ih =>
    intro acc ht
    have hch : ch ≠ '\t' := ht ch (by simp)
    simp only [renderAux, if_neg hch]
    rw [ih (acc ++ [ch]) (fun c hc => ht c (by simp [hc]))]
    simp

theorem renderAux_length (t : List Char) :
    ∀ acc, acc.length + t.length ≤ (renderAux acc t).length := by
  induction t with
  | nil => intro acc; simp [renderAux]
  | cons ch rest ih =>
    intro acc
    by_cases hch : ch = '\t'
    · simp only [renderAux, hch, if_pos rfl]
      calc acc.length + (ch :: rest).length
          ≤ ((acc ++ [' ']) ++
              List.replicate ((8 - byteLen (acc ++ [' ']) % 8) % 8) ' ').length
                + rest.length := by simp; omega
        _ ≤ _ := ih _
    · simp only [renderAux, if_neg hch]
      calc acc.length + (ch :: rest).length
          = (acc ++ [ch]).length + rest.length := by simp; omega
        _ ≤ _ := ih _

/-- C8: the render form is idempotent, and its character length is at least
the character length of the raw text. -/
theorem claim_C8_render_idempotent (t : List Char) :
    rowRender (rowRender t) = rowRender t ∧
    t.length ≤ (rowRender t).length := by
  constructor
  · have hnt : ∀ c ∈ rowRender t, c ≠ '\t' :=
      renderAux_no_tab t [] (by intro c hc; cases hc)
    unfold rowRender
    rw [renderAux_of_no_tab (renderAux [] t) [] hnt]
    simp
  · simpa using renderAux_length t []

theorem renderAux_eq_renderSpec (t : List Char) :
    ∀ acc, renderAux acc t = acc ++ renderSpec (byteLen acc) t := by
  induction t with
  | nil => intro acc; simp [renderAux, renderSpec]
  | cons ch rest ih =>
    intro acc
    by_cases hch : ch = '\t'
    · simp only [renderAux, renderSpec, hch, if_pos rfl]
      rw [ih]
      have h1 : byteLen (acc ++ [' ']) = byteLen acc + 1 := by
        simp; rfl
      have h2 : (acc ++ [' ']) ++ List.replicate ((8 - byteLen (acc ++ [' ']) % 8) % 8) ' '
          = acc ++ tabPad (byteLen acc) := by
        simp [tabPad, h1]
      rw [h2]
      have h3 : byteLen (acc ++ tabPad (byteLen acc))
          = byteLen acc + byteLen (tabPad (byteLen acc)) := by simp
      rw [h3]
      simp
    · simp only [renderAux, renderSpec, if_neg hch]
      rw [ih]
      simp

/-- C3 (amended): every tab expands to one or more spaces such that the
column immediately after the expansion, measured in UTF-8 bytes of the render
string (not in characters), is the next multiple of 8; all non-tab
characters pass through unchanged.  Stated as: the render computed by
`Row::update` equals the byte-column scan `renderSpec`, and every tab block
is a nonempty run of spaces ending on a multiple-of-8 byte column. -/
theorem claim_C3_tab_stops (t : List Char) (col : Nat) :
    rowRender t = renderSpec 0 t ∧
    1 ≤ (tabPad col).length ∧
    (tabPad col).all (fun c => c == ' ') = true ∧
    (col + byteLen (tabPad col)) % 8 = 0 := by
  refine ⟨by simpa using renderAux_eq_renderSpec t [], by simp [tabPad], ?_, ?_⟩
  · simp [tabPad, List.all_eq_true]
  · have : byteLen (tabPad col) = 1 + (8 - (col + 1) % 8) % 8 := by
      simp [tabPad]; rfl
    rw [this]
    omega

/-- C3 counterexample: for the text `"é\t"` (a 2-byte character then a tab)
the character column immediately after the tab expansion is 7, not the next
multiple of 8 character columns — the code advances to a multiple of 8
*bytes*, not characters. -/
theorem claim_C3_counterexample :
    "é\t".toList.length = 2 ∧
    rowRender "é\t".toList = 'é' :: List.replicate 6 ' ' ∧
    (rowRender "é\t".toList).length = 7 ∧ (rowRender "é\t".toList).length % 8 = 7 := by
  decide

/-- C4 counterexample: on a buffer whose line 0 is the one-character text
`"é"` (character length 1, UTF-8 byte length 2), `fixup` of `(x=5, y=0)`
clamps `x` to 2, the byte length, not to the character length 1 the claim
states. -/
theorem claim_C4_counterexample :
    fixup eC4 (pos 5 0) = pos 2 0 ∧ "é".toList.length = 1 := by
  decide

/-- C4 (amended): `fixup` returns `pos` with `pos.x` clamped to the UTF-8
byte length (`String::len`) of line `pos.y` when that line exists and `pos.x`
exceeds that byte length, returns `pos` unchanged otherwise, and never
changes `pos.y`. -/
theorem claim_C4_fixup_clamps (e : Editor) (p : Pos) :
    (fixup e p).y = p.y ∧
    (∀ row, e.rows[p.y]? = some row →
      (p.x ≤ byteLen row.text → fixup e p = p) ∧
      (byteLen row.text < p.x → fixup e p = pos (byteLen row.text) p.y)) ∧
    (e.rows[p.y]? = none → fixup e p = p) := by
  unfold fixup
  rcases hrow : e.rows[p.y]? with _ | row
  · refine ⟨rfl, ?_, fun _ => rfl⟩
    intro row' hrow'
    cases hrow'
  · refine ⟨?_, ?_, fun hnone => by cases hnone⟩
    · show (if byteLen row.text < p.x then ({ x := byteLen row.text, y := p.y } : Pos) else p).y
        = p.y
      split <;> rfl
    · intro rr hrow'
      injection hrow' with hr
      subst hr
      constructor
      · intro hle
        show (if byteLen row.text < p.x then ({ x := byteLen row.text, y := p.y } : Pos) else p)
          = p
        rw [if_neg (Nat.not_lt.mpr hle)]
      · intro hlt
        show (if byteLen row.text < p.x then ({ x := byteLen row.text, y := p.y } : Pos) else p)
          = pos (byteLen row.text) p.y
        rw [if_pos hlt]
        rfl

/-- Witness for the amended C4 at a concrete buffer and position. -/
theorem claim_C4_fixup_clamps_witness :
    byteLen (row_update "é".toList).text < 5 ∧ fixup eC4 (pos 5 0) = pos 2 0 := by
  refine ⟨by decide, ?_⟩
  have h := ((claim_C4_fixup_clamps eC4 (pos 5 0)).2.1 (row_update "é".toList)
    (by decide)).2 (by decide)
  rw [h]
  decide

@[simp]
theorem scroll_to_cursor (e : Editor) (p : Pos) : (scroll_to e p).cursor = e.cursor := by
  unfold scroll_to
  split
  · rfl
  · split <;> rfl

@[simp]
theorem scroll_to_rows (e : Editor) (p : Pos) : (scroll_to e p).rows = e.rows := by
  unfold scroll_to
  split
  · rfl
  · split <;> rfl

@[simp]
theorem scroll_to_synOpt (e : Editor) (p : Pos) : (scroll_to e p).synOpt = e.synOpt := by
  unfold scroll_to
  split
  · rfl
  · split <;> rfl

@[simp]
theorem move_cursor_to_rows (e : Editor) (p : Pos) :
    (move_cursor_to e p).rows = e.rows := by
  unfold move_cursor_to
  split <;> simp

@[simp]
theorem move_cursor_to_synOpt (e : Editor) (p : Pos) :
    (move_cursor_to e p).synOpt = e.synOpt := by
  unfold move_cursor_to
  split <;> simp

theorem move_cursor_to_cursor (e : Editor) (p : Pos) (h : p.y < e.rows.length) :
    (move_cursor_to e p).cursor = p := by
  unfold move_cursor_to
  rw [if_neg (by omega)]

theorem move_cursor_to_cursor_x (e : Editor) (p : Pos) :
    (move_cursor_to e p).cursor.x = p.x := by
  unfold move_cursor_to
  split
  · split <;> rfl
  · rfl

/-- C6: with `dx = 0` the move applies no fixup and the cursor's `x` after
the move is the raw `x` before it (sticky column, even past the end of the
destination line); with `dx != 0` the move is: fixup the cursor, add the
delta saturating at zero on both axes, fixup the result, then `move_to`. -/
theorem claim_C6_move_by (e : Editor) (d : Delta) :
    move_cursor_by e d =
      (if d.dx = 0 then
        move_cursor_to e (pos e.cursor.x (uclamp ((e.cursor.y : Int) + d.dy)))
      else
        move_cursor_to e (fixup e
          (pos (uclamp (((fixup e e.cursor).x : Int) + d.dx))
               (uclamp (((fixup e e.cursor).y : Int) + d.dy))))) ∧
    (d.dx = 0 → (move_cursor_by e d).cursor.x = e.cursor.x) := by
  have hmain : move_cursor_by e d =
      (if d.dx = 0 then
        move_cursor_to e (pos e.cursor.x (uclamp ((e.cursor.y : Int) + d.dy)))
      else
        move_cursor_to e (fixup e
          (pos (uclamp (((fixup e e.cursor).x : Int) + d.dx))
               (uclamp (((fixup e e.cursor).y : Int) + d.dy))))) := by
    unfold move_cursor_by
    by_cases h : d.dx = 0 <;> simp [h, pos, uclamp]
  refine ⟨hmain, fun h => ?_⟩
  rw [hmain, if_pos h, move_cursor_to_cursor_x]
  rfl

/-- Witness for C6: the spec's sticky-column example.  From `(x=10, y=0)` on
a line of character length 3, moving by `(dx=0, dy=1)` onto a longer line
leaves `cursor.x = 10` uncorrected. -/
theorem claim_C6_move_by_witness :
    (move_cursor_by eC6 (delta 0 1)).cursor.x = 10 :=
  ((claim_C6_move_by eC6 (delta 0 1)).2 rfl).trans rfl

theorem read_csi_accum (seq : List Nat) :
    ∀ buf final rest, (∀ c ∈ seq, c < 64 ∨ 126 < c) → 64 ≤ final → final ≤ 126 →
    read_csi buf (seq.map Poll.byte ++ (Poll.byte final :: rest))
      = (Escape.CSI (buf ++ seq ++ [final]), rest) := by
  induction seq with
  | nil =>
    intro buf final rest _ h1 h2
    simp [read_csi, h1, h2]
  | cons c cs ih =>
    intro buf final rest hseq h1 h2
    have hc : ¬(64 ≤ c ∧ c ≤ 126) := by
      rcases hseq c (by simp) with h | h <;> omega
    simp only [List.map_cons, List.cons_append, read_csi, if_neg hc, List.append_eq]
    rw [ih (buf ++ [c]) final rest (fun x hx => hseq x (by simp [hx])) h1 h2]
    simp

theorem read_csi_to_timeout (seq : List Nat) :
    ∀ buf rest, (∀ c ∈ seq, c < 64 ∨ 126 < c) →
    read_csi buf (seq.map Poll.byte ++ (Poll.timeout :: rest)) = (Escape.Esc, rest) := by
  induction seq with
  | nil =>
    intro buf rest _
    simp [read_csi]
  | cons c cs ih =>
    intro buf rest hseq
    have hc : ¬(64 ≤ c ∧ c ≤ 126) := by
      rcases hseq c (by simp) with h | h <;> omega
    simp only [List.map_cons, List.cons_append, read_csi, if_neg hc, List.append_eq]
    exact ih (buf ++ [c]) rest (fun x hx => hseq x (by simp [hx]))

/-- C5: the key decoder's behavior.  A first byte other than ESC yields
`Char(byte)`; ESC then a timeout (or end of stream) yields `Esc`; ESC `[`
accumulates bytes until the first byte in `[64, 126]` and maps the nine
recognised sequences to their keys, every other completed sequence to no
event; a timeout inside the CSI loop yields `Esc` instead of hanging. -/
theorem claim_C5_key_decoder :
    (∀ b rest, b ≠ 27 →
      read_escape (Poll.byte b :: rest) = some (Escape.Char b, rest) ∧
      interpret (Escape.Char b) = some (Key.Char b)) ∧
    (∀ rest, read_escape (Poll.byte 27 :: Poll.timeout :: rest) = some (Escape.Esc, rest)) ∧
    (read_escape [Poll.byte 27] = some (Escape.Esc, [])) ∧
    (∀ (seq : List Nat) (final : Nat) (rest : List Poll),
      (∀ c ∈ seq, c < 64 ∨ 126 < c) → 64 ≤ final → final ≤ 126 →
      read_escape (Poll.byte 27 :: Poll.byte 91 ::
          (seq.map Poll.byte ++ (Poll.byte final :: rest)))
        = some (Escape.CSI (seq ++ [final]), rest)) ∧
    (∀ (seq : List Nat) (rest : List Poll), (∀ c ∈ seq, c < 64 ∨ 126 < c) →
      read_escape (Poll.byte 27 :: Poll.byte 91 :: (seq.map Poll.byte ++ (Poll.timeout :: rest)))
        = some (Escape.Esc, rest)) ∧
    (interpret (Escape.CSI [51, 126]) = some Key.Del ∧
     interpret (Escape.CSI [53, 126]) = some Key.PageUp ∧
     interpret (Escape.CSI [54, 126]) = some Key.PageDown ∧
     interpret (Escape.CSI [65]) = some Key.ArrowUp ∧
     interpret (Escape.CSI [66]) = some Key.ArrowDown ∧
     interpret (Escape.CSI [67]) = some Key.ArrowRight ∧
     interpret (Escape.CSI [68]) = some Key.ArrowLeft ∧
     interpret (Escape.CSI [72]) = some Key.Home ∧
     interpret (Escape.CSI [70]) = some Key.End) ∧
    (∀ seq, seq ∉ ([[51, 126], [53, 126], [54, 126],
        [65], [66], [67], [68], [72], [70]] : List (List Nat)) →
      interpret (Escape.CSI seq) = none) := by
  refine ⟨?_, ?_, by decide, ?_, ?_, by decide, ?_⟩
  · intro b rest h
    exact ⟨by simp [read_escape, read_byte, h], by simp [interpret]⟩
  · intro rest
    simp [read_escape, read_byte, maybe_read_byte]
  · intro seq final rest hseq h1 h2
    have h := read_csi_accum seq [] final rest hseq h1 h2
    simp only [List.nil_append] at h
    simp [read_escape, read_byte, maybe_read_byte, h]
  · intro seq rest hseq
    have h := read_csi_to_timeout seq [] rest hseq
    simp [read_escape, read_byte, maybe_read_byte, h]
  · intro seq h
    simp only [List.mem_cons, not_or] at h
    obtain ⟨h1, h2, h3, h4, h5, h6, h7, h8, h9, -⟩ := h
    simp [interpret, h1, h2, h3, h4, h5, h6, h7, h8, h9]

/-- Witness for C5: the spec's decoder examples, obtained by instantiating
the decoder theorem at concrete streams. -/
theorem claim_C5_key_decoder_witness :
    read_escape [Poll.byte 97] = some (Escape.Char 97, []) ∧
    read_escape [Poll.byte 27, Poll.byte 91, Poll.byte 51, Poll.byte 126]
      = some (Escape.CSI [51, 126], []) ∧
    interpret (Escape.CSI [51, 51]) = none :=
  ⟨(claim_C5_key_decoder.1 97 [] (by decide)).1,
   claim_C5_key_decoder.2.2.2.1 [51] 126 [] (by decide) (by decide) (by decide),
   claim_C5_key_decoder.2.2.2.2.2.2 [51, 51] (by decide)⟩

@[simp]
theorem move_cursor_by_rows (e : Editor) (d : Delta) :
    (move_cursor_by e d).rows = e.rows := by
  unfold move_cursor_by
  simp

@[simp]
theorem move_cursor_by_synOpt (e : Editor) (d : Delta) :
    (move_cursor_by e d).synOpt = e.synOpt := by
  unfold move_cursor_by
  simp

theorem search_forwardF_rows (fuel : Nat) :
    ∀ e q b e2, search_forwardF fuel e q = some (b, e2) → e2.rows = e.rows := by
  induction fuel with
  | zero =>
    intro e q b e2 h
    rw [search_forwardF] at h
    split at h
    · cases h
    · split at h
      · simp only [Option.some.injEq, Prod.mk.injEq] at h
        rw [← h.2]
        simp
      · split at h
        · simp only [Option.some.injEq, Prod.mk.injEq] at h
          rw [← h.2]
        · cases h
  | succ fuel1 ih =>
    intro e q b e2 h
    rw [search_forwardF] at h
    split at h
    · cases h
    · split at h
      · simp only [Option.some.injEq, Prod.mk.injEq] at h
        rw [← h.2]
        simp
      · split at h
        · simp only [Option.some.injEq, Prod.mk.injEq] at h
          rw [← h.2]
        · have := ih _ _ _ _ h
          rw [this]
          simp

theorem search_backwardF_rows (fuel : Nat) :
    ∀ e q b e2, search_backwardF fuel e q = some (b, e2) → e2.rows = e.rows := by
  induction fuel with
  | zero =>
    intro e q b e2 h
    rw [search_backwardF] at h
    split at h
    · cases h
    · split at h
      · cases h
      · simp only [Option.some.injEq, Prod.mk.injEq] at h
        rw [← h.2]
        simp
      · split at h
        · simp only [Option.some.injEq, Prod.mk.injEq] at h
          rw [← h.2]
        · split at h
          · cases h
          · cases h
  | succ fuel1 ih =>
    intro e q b e2 h
    rw [search_backwardF] at h
    split at h
    · cases h
    · split at h
      · cases h
      · simp only [Option.some.injEq, Prod.mk.injEq] at h
        rw [← h.2]
        simp
      · split at h
        · simp only [Option.some.injEq, Prod.mk.injEq] at h
          rw [← h.2]
        · split at h
          · cases h
          · have := ih _ _ _ _ h
            rw [this]
            simp

theorem find_char_ge (s q : List Char) (i j : Nat) (h : find_char s q j = some i) :
    j ≤ i := by
  unfold find_char at h
  split at h
  · rcases Option.map_eq_some'.mp h with ⟨k, _, hk⟩
    omega
  · cases h

theorem search_forwardF_isSome (fuel : Nat) :
    ∀ e q, e.cursor.y < e.rows.length → e.rows.length - e.cursor.y ≤ fuel + 1 →
    ∃ r, search_forwardF fuel e q = some r := by
  induction fuel with
  | zero =>
    intro e q hy hle
    rw [search_forwardF]
    split
    · rename_i hrow
      rw [List.getElem?_eq_none_iff] at hrow
      omega
    · split
      · exact ⟨_, rfl⟩
      · split
        · exact ⟨_, rfl⟩
        · rename_i hlast
          exact (hlast (by omega)).elim
  | succ fuel1 ih =>
    intro e q hy hle
    rw [search_forwardF]
    split
    · rename_i hrow
      rw [List.getElem?_eq_none_iff] at hrow
      omega
    · split
      · exact ⟨_, rfl⟩
      · split
        · exact ⟨_, rfl⟩
        · rename_i hlast
          have hy1 : e.cursor.y + 1 < e.rows.length := by omega
          have hcur := move_cursor_to_cursor e (pos 0 (e.cursor.y + 1)) (by simpa using hy1)
          apply ih
          · rw [hcur, move_cursor_to_rows]
            simpa using hy1
          · rw [hcur, move_cursor_to_rows]
            show e.rows.length - (e.cursor.y + 1) ≤ fuel1 + 1
            omega

theorem search_forwardF_found_ge (fuel : Nat) :
    ∀ e q e2, search_forwardF fuel e q = some (true, e2) →
    e.cursor.y < e2.cursor.y ∨ (e2.cursor.y = e.cursor.y ∧ e.cursor.x ≤ e2.cursor.x) := by
  induction fuel with
  | zero =>
    intro e q e2 h
    rw [search_forwardF] at h
    split at h
    · cases h
    · rename_i row hrow
      split at h
      · rename_i idx hf
        simp only [Option.some.injEq, Prod.mk.injEq] at h
        have hy : e.cursor.y < e.rows.length := by
          by_contra hc
          rw [List.getElem?_eq_none (by omega)] at hrow
          cases hrow
        have hcur := move_cursor_to_cursor e (pos idx e.cursor.y) (by simpa using hy)
        rw [← h.2, hcur]
        right
        exact ⟨rfl, find_char_ge row.text q idx e.cursor.x hf⟩
      · split at h
        · simp only [Option.some.injEq, Prod.mk.injEq] at h
          cases h.1
        · cases h
  | succ fuel1 ih =>
    intro e q e2 h
    rw [search_forwardF] at h
    split at h
    · cases h
    · rename_i row hrow
      split at h
      · rename_i idx hf
        simp only [Option.some.injEq, Prod.mk.injEq] at h
        have hy : e.cursor.y < e.rows.length := by
          by_contra hc
          rw [List.getElem?_eq_none (by omega)] at hrow
          cases hrow
        have hcur := move_cursor_to_cursor e (pos idx e.cursor.y) (by simpa using hy)
        rw [← h.2, hcur]
        right
        exact ⟨rfl, find_char_ge row.text q idx e.cursor.x hf⟩
      · split at h
        · simp only [Option.some.injEq, Prod.mk.injEq] at h
          cases h.1
        · rename_i hlast
          have hy : e.cursor.y < e.rows.length := by
            by_contra hc
            rw [List.getElem?_eq_none (by omega)] at hrow
            cases hrow
          have hy1 : e.cursor.y + 1 < e.rows.length := by omega
          have hcur := move_cursor_to_cursor e (pos 0 (e.cursor.y + 1)) (by simpa using hy1)
          have hrec := ih _ _ _ h
          rw [hcur] at hrec
          left
          rcases hrec with hlt | ⟨heq, _⟩
          · have h2 : (pos 0 (e.cursor.y + 1)).y < e2.cursor.y := hlt
            simp [pos] at h2
            omega
          · rw [heq]
            simp [pos]

/-- C9: `search_forward` indexes `rows[cursor.y]` with no bounds check, so it
is total exactly under the precondition `cursor.y < rows.length` (which
requires a non-empty buffer); outside it — in particular on an empty buffer,
where the indexing of line 0 is out of bounds — it reaches the indexing
panic, modelled as `none`. -/
theorem search_forwardF_oob (fuel : Nat) (e : Editor) (q : List Char)
    (h : e.rows.length ≤ e.cursor.y) : search_forwardF fuel e q = none := by
  cases fuel <;> (rw [search_forwardF]; rw [List.getElem?_eq_none h])

theorem claim_C9_search_forward_bounds (e : Editor) (q : List Char) :
    (e.rows.length ≤ e.cursor.y → search_forward e q = none) ∧
    (e.cursor.y < e.rows.length → ∃ r, search_forward e q = some r) := by
  constructor
  · intro h
    exact search_forwardF_oob e.rows.length e q h
  · intro h
    exact search_forwardF_isSome e.rows.length e q h (by omega)

/-- Witness for C9: the search panics (out-of-bounds, `none`) on the empty
buffer and succeeds on a two-line buffer with the cursor in range. -/
theorem claim_C9_search_forward_bounds_witness :
    search_forward eEmpty ['a'] = none ∧ ∃ r, search_forward eC6 ['z'] = some r :=
  ⟨(claim_C9_search_forward_bounds eEmpty ['a']).1 (by decide),
   (claim_C9_search_forward_bounds eC6 ['z']).2 (by decide)⟩

/-- C7: in a search iteration on a non-empty buffer with the cursor in
bounds, a failed forward search (reaching the last line with no match) or a
failed backward search (reaching line 0 with no match) leaves the cursor
exactly where it was at the start of the iteration; and a successful forward
search only ever lands at or after the starting position — it never wraps
around to the beginning of the buffer. -/
theorem claim_C7_failed_search_restores (e : Editor) (q : List Char) (d : Int)
    (hy : e.cursor.y < e.rows.length) :
    (∀ e2, 0 ≤ d →
      search_forward (if 0 < d then move_cursor_by e (delta 1 0) else e) q
        = some (false, e2) →
      ∃ e3, searchStep e q d = some e3 ∧ e3.cursor = e.cursor) ∧
    (∀ e2, d < 0 → search_backward e q = some (false, e2) →
      ∃ e3, searchStep e q d = some e3 ∧ e3.cursor = e.cursor) ∧
    (∀ e2, search_forward e q = some (true, e2) →
      e.cursor.y < e2.cursor.y ∨ (e2.cursor.y = e.cursor.y ∧ e.cursor.x ≤ e2.cursor.x)) := by
  refine ⟨?_, ?_, ?_⟩
  · intro e2 hd hs
    have hrows : e2.rows = e.rows := by
      unfold search_forward at hs
      have h1 := search_forwardF_rows _ _ _ _ _ hs
      rw [h1]
      split <;> simp
    refine ⟨move_cursor_to e2 e.cursor, ?_,
      move_cursor_to_cursor e2 e.cursor (by rw [hrows]; exact hy)⟩
    simp only [searchStep]
    rw [if_pos hd, hs]
    rfl
  · intro e2 hd hs
    have hrows : e2.rows = e.rows := by
      unfold search_backward at hs
      exact search_backwardF_rows _ _ _ _ _ hs
    refine ⟨move_cursor_to e2 e.cursor, ?_,
      move_cursor_to_cursor e2 e.cursor (by rw [hrows]; exact hy)⟩
    simp only [searchStep]
    rw [if_neg (by omega), hs]
    rfl
  · intro e2 hs
    unfold search_forward at hs
    exact search_forwardF_found_ge _ _ _ _ hs

/-- Witness for C7: searching the two-line buffer for an absent query with
`direction = 0` fails on the last line and restores the cursor to `(10, 0)`. -/
theorem claim_C7_failed_search_restores_witness :
    ∃ e3, searchStep eC6 "zz".toList 0 = some e3 ∧ e3.cursor = eC6.cursor :=
  (claim_C7_failed_search_restores eC6 "zz".toList 0 (by decide)).1
    { eC6 with cursor := pos 0 1 } (by decide) (by decide)

theorem lastHL_cons (p : Option HighlightResult) (r : Row) (l : List Row) :
    lastHL p (r :: l) = lastHL r.highlight l := by
  cases l with
  | nil => rfl
  | cons x xs =>
    rcases h : (x :: xs).getLast? with _ | a
    · rw [List.getLast?_eq_none_iff] at h
      cases h
    · simp [lastHL, List.getLast?_cons_cons, h]

theorem chainOkW_append (l1 : List Row) :
    ∀ p l2, ChainOkW p (l1 ++ l2) ↔ ChainOkW p l1 ∧ ChainOkW (lastHL p l1) l2 := by
  induction l1 with
  | nil =>
    intro p l2
    simp [ChainOkW, lastHL]
  | cons r l1 ih =>
    intro p l2
    simp only [List.cons_append, ChainOkW, ih, lastHL_cons, List.append_eq]
    tauto

theorem chainOkW_all_none (l : List Row) :
    ∀ p, (∀ r ∈ l, r.highlight = none) → ChainOkW p l := by
  induction l with
  | nil =>
    intro p _
    trivial
  | cons r l ih =>
    intro p hall
    refine ⟨?_, ih r.highlight (fun x hx => hall x (by simp [hx]))⟩
    intro h hh
    rw [hall r (by simp)] at hh
    cases hh

theorem chainOkW_validEnds (l : List Row) :
    ∀ p, ChainOkW p l → ∀ r ∈ l, ∀ h, r.highlight = some h → validCarry h.ending_state := by
  induction l with
  | nil =>
    intro p _ r hr
    cases hr
  | cons r0 l ih =>
    intro p hc r hr h hh
    rcases List.mem_cons.mp hr with rfl | hr
    · exact (hc.1 h hh).2
    · exact ih r0.highlight hc.2 r hr h hh

theorem chainOkW_take (l : List Row) (p : Option HighlightResult) (n : Nat)
    (h : ChainOkW p l) : ChainOkW p (l.take n) := by
  have happ := chainOkW_append (l.take n) p (l.drop n)
  rw [List.take_append_drop] at happ
  exact (happ.mp h).1

theorem chainOkW_head (l : List Row) (p : Option HighlightResult) (hc : ChainOkW p l)
    (r : Row) (h0 : l[0]? = some r) (hl : HighlightResult) (hh : r.highlight = some hl) :
    hl.initial_state = expectedInit p := by
  cases l with
  | nil => cases h0
  | cons r0 l =>
    have : r0 = r := by simpa using h0
    subst this
    exact (hc.1 hl hh).1

theorem chainOkW_getElem_succ (l : List Row) :
    ∀ p i r r2 hl hl2, ChainOkW p l → l[i]? = some r → l[i + 1]? = some r2 →
      r.highlight = some hl → r2.highlight = some hl2 →
      hl2.initial_state = hl.ending_state := by
  induction l with
  | nil =>
    intro p i r r2 hl hl2 _ h1
    cases h1
  | cons r0 l ih =>
    intro p i r r2 hl hl2 hc h1 h2 hhl hhl2
    cases i with
    | zero =>
      have hr0 : r0 = r := by simpa using h1
      subst hr0
      have h20 : l[0]? = some r2 := by simpa using h2
      have := chainOkW_head l r0.highlight hc.2 r2 h20 hl2 hhl2
      rw [this, hhl]
      rfl
    | succ i =>
      exact ih r0.highlight i r r2 hl hl2 hc.2 (by simpa using h1) (by simpa using h2) hhl hhl2

theorem initStateFor_eq (prevRow? : Option Row) :
    initStateFor prevRow? = expectedInit (prevRow?.bind Row.highlight) := by
  cases prevRow? with
  | none => rfl
  | some pr => cases hpr : pr.highlight <;> simp [initStateFor, expectedInit, hpr]

theorem initStateFor_valid (prevRow? : Option Row)
    (hv : ∀ pr h, prevRow? = some pr → pr.highlight = some h → validCarry h.ending_state) :
    validCarry (initStateFor prevRow?) := by
  cases prevRow? with
  | none => exact Or.inl rfl
  | some pr =>
    cases hpr : pr.highlight with
    | none =>
      simp only [initStateFor, hpr]
      exact Or.inl rfl
    | some h =>
      simp only [initStateFor, hpr]
      exact hv pr h rfl hpr

theorem highlight_spec_of_valid (syn : SynRules) (cc : CharClasses) (init : Highlight)
    (s : List Char) (h : validCarry init) :
    ∃ hr, highlight syn cc init s = some hr ∧ hr.initial_state = init ∧
      validCarry hr.ending_state := by
  obtain ⟨hr, hhr⟩ :=
    Option.isSome_iff_exists.mp (highlight_isSome_of_validCarry syn cc init s h)
  exact ⟨hr, hhr, highlight_initial_eq _ _ _ _ _ hhr, highlight_ending_valid _ _ _ _ _ hhr⟩

/-- The rehighlight scan succeeds and restores the chain invariant over the
rows it covers, provided the stored ending states it may consume are legal
carries and either the first row's cached highlight has been cleared (as
`update_row` always does at the start index) or the row above carries a
cached highlight. -/
theorem rehighlightFrom_ok (syn : SynRules) (cc : CharClasses) (rows : List Row) :
    ∀ prevRow? : Option Row,
    (∀ pr h, prevRow? = some pr → pr.highlight = some h → validCarry h.ending_state) →
    (∀ r ∈ rows, ∀ h, r.highlight = some h → validCarry h.ending_state) →
    ((∀ r, rows.head? = some r → r.highlight = none) ∨
      (∃ pr hp, prevRow? = some pr ∧ pr.highlight = some hp)) →
    ∃ out, rehighlightFrom syn cc prevRow? rows = some out ∧
      ChainOkW (prevRow?.bind Row.highlight) out ∧
      out.length = rows.length := by
  induction rows with
  | nil =>
    intro prevRow? _ _ _
    exact ⟨[], rfl, trivial, rfl⟩
  | cons r rest ih =>
    intro prevRow? hprev hends hhead
    rcases hre : r.highlight with _ | hcur
    · -- the row has no cached highlight: it is recomputed unconditionally
      have hneeds : needsRehighlight prevRow? r = some true := by
        cases prevRow? with
        | none => simp [needsRehighlight, hre]
        | some pr => simp [needsRehighlight, hre]
      obtain ⟨hr, hhr, hinit, hend⟩ :=
        highlight_spec_of_valid syn cc (initStateFor prevRow?) r.render
          (initStateFor_valid prevRow? hprev)
      obtain ⟨out, hout, hchain, hlen⟩ :=
        ih (some { r with highlight := some hr })
          (by
            intro pr h hpr hh
            injection hpr with hpr
            rw [← hpr] at hh
            simp at hh
            rw [← hh]
            exact hend)
          (fun x hx => hends x (by simp [hx]))
          (Or.inr ⟨_, hr, rfl, rfl⟩)
      refine ⟨{ r with highlight := some hr } :: out, ?_, ?_, by simpa using hlen⟩
      · simp [rehighlightFrom, hneeds, hhr, hout]
      · refine ⟨?_, by simpa using hchain⟩
        intro h hh
        simp at hh
        rw [← hh]
        exact ⟨by rw [hinit, initStateFor_eq], hend⟩
    · -- the row has a cached highlight: the row above must have one too
      rcases hhead with hhead | ⟨pr, hp, hpr, hhp⟩
      · rw [hhead r rfl] at hre
        cases hre
      · subst hpr
        by_cases heq : hcur.initial_state = hp.ending_state
        · -- states agree: the row is kept as is
          have hneeds : needsRehighlight (some pr) r = some false := by
            simp [needsRehighlight, hre, hhp, heq]
          obtain ⟨out, hout, hchain, hlen⟩ :=
            ih (some r)
              (by
                intro pr2 h hpr2 hh
                injection hpr2 with hpr2
                rw [← hpr2, hre] at hh
                injection hh with hh
                rw [← hh]
                exact hends r (by simp) hcur hre)
              (fun x hx => hends x (by simp [hx]))
              (Or.inr ⟨r, hcur, rfl, hre⟩)
          refine ⟨r :: out, ?_, ?_, by simpa using hlen⟩
          · simp [rehighlightFrom, hneeds, hout]
          · refine ⟨?_, by simpa using hchain⟩
            intro h hh
            rw [hre] at hh
            injection hh with hh
            rw [← hh]
            refine ⟨?_, hends r (by simp) hcur hre⟩
            rw [heq]
            simp [expectedInit, hhp]
        · -- states disagree: the row is recomputed
          have hneeds : needsRehighlight (some pr) r = some true := by
            simp [needsRehighlight, hre, hhp, heq]
          obtain ⟨hr, hhr, hinit, hend⟩ :=
            highlight_spec_of_valid syn cc (initStateFor (some pr)) r.render
              (initStateFor_valid _ hprev)
          obtain ⟨out, hout, hchain, hlen⟩ :=
            ih (some { r with highlight := some hr })
              (by
                intro pr2 h hpr2 hh
                injection hpr2 with hpr2
                rw [← hpr2] at hh
                simp at hh
                rw [← hh]
                exact hend)
              (fun x hx => hends x (by simp [hx]))
              (Or.inr ⟨_, hr, rfl, rfl⟩)
          refine ⟨{ r with highlight := some hr } :: out, ?_, ?_, by simpa using hlen⟩
          · simp [rehighlightFrom, hneeds, hhr, hout]
          · refine ⟨?_, by simpa using hchain⟩
            intro h hh
            simp at hh
            rw [← hh]
            exact ⟨by rw [hinit, initStateFor_eq], hend⟩

theorem getLast?_take_eq {α : Type} (l : List α) (i : Nat) (h1 : 1 ≤ i)
    (h2 : i ≤ l.length) : (l.take i).getLast? = l[i - 1]? := by
  rw [List.getLast?_eq_getElem?, List.length_take]
  have hmin : min i l.length = i := by omega
  rw [hmin]
  exact List.getElem?_take_of_lt (by omega)

/-- `update_row` preserves the chain invariant: if the part of the buffer
before the updated index is chained and every stored ending state is a legal
carry, the resulting buffer is chained from the top.  Rows, cursor and
viewport bookkeeping are otherwise untouched. -/
theorem update_row_chain (cc : CharClasses) (e : Editor) (index : Nat) (text : List Char)
    (syn : SynRules) (hsyn : e.synOpt = some syn) (e2 : Editor)
    (hch : ChainOkW none (e.rows.take index))
    (hval : ∀ r ∈ e.rows, ∀ h, r.highlight = some h → validCarry h.ending_state)
    (h : update_row cc e index text = some e2) :
    ChainOkW none e2.rows ∧ e2.rows.length = e.rows.length ∧
    e2.cursor = e.cursor ∧ e2.offset = e.offset ∧ e2.screen = e.screen ∧
    e2.synOpt = e.synOpt := by
  by_cases hidx : index < e.rows.length
  · have htake1 : (e.rows.set index (row_update text)).take index = e.rows.take index := by
      rw [List.set_take, List.set_eq_of_length_le]
      rw [List.length_take]
      omega
    obtain ⟨out, hout, hchain, hlen⟩ :=
      rehighlightFrom_ok syn cc ((e.rows.set index (row_update text)).drop index)
        (if index = 0 then none else (e.rows.set index (row_update text))[index - 1]?)
        (by
          intro pr hh hpr hhpr
          split at hpr
          · cases hpr
          · rename_i hi0
            rw [List.getElem?_set_ne (by omega)] at hpr
            exact hval pr (List.getElem?_mem hpr) hh hhpr)
        (by
          intro r hr hh hhr
          rcases List.mem_or_eq_of_mem_set (List.mem_of_mem_drop hr) with hmem | rfl
          · exact hval r hmem hh hhr
          · cases hhr)
        (by
          left
          intro r hr
          rw [List.head?_drop, List.getElem?_set_self hidx] at hr
          injection hr with hr
          rw [← hr]
          rfl)
    have hcomp : update_row cc e index text
        = some { e with rows := (e.rows.set index (row_update text)).take index ++ out } := by
      simp [update_row, hidx, hsyn, hout]
    rw [hcomp] at h
    injection h with h
    subst h
    refine ⟨?_, ?_, rfl, rfl, rfl, rfl⟩
    · rw [chainOkW_append]
      refine ⟨by rw [htake1]; exact hch, ?_⟩
      have hlast : lastHL none ((e.rows.set index (row_update text)).take index)
          = (if index = 0 then none
              else (e.rows.set index (row_update text))[index - 1]?).bind Row.highlight := by
        by_cases hi0 : index = 0
        · subst hi0
          rfl
        · rw [if_neg hi0, htake1]
          unfold lastHL
          rw [getLast?_take_eq e.rows index (by omega) (by omega)]
          rw [List.getElem?_set_ne (by omega)]
          rcases hr : e.rows[index - 1]? with _ | r
          · rw [List.getElem?_eq_none_iff] at hr
            omega
          · rfl
      rw [hlast]
      exact hchain
    · simp only [List.length_append, List.length_take, List.length_set, hlen,
        List.length_drop, List.length_set]
      omega
  · unfold update_row at h
    rw [if_neg hidx] at h
    cases h

theorem ensure_good (syn : SynRules) (e : Editor) (hg : GoodEd syn e) :
    GoodEd syn (ensure_line_exists e) := by
  refine ⟨hg.1, ?_⟩
  show ChainOkW none (e.rows ++ List.replicate (e.cursor.y + 1 - e.rows.length) rowNew)
  rw [chainOkW_append]
  refine ⟨hg.2, chainOkW_all_none _ _ ?_⟩
  intro r hr
  rw [List.eq_of_mem_replicate hr]
  rfl

theorem update_row_good (cc : CharClasses) (syn : SynRules) (e e2 : Editor)
    (i : Nat) (t : List Char) (hg : GoodEd syn e) (h : update_row cc e i t = some e2) :
    GoodEd syn e2 ∧ e2.cursor = e.cursor ∧ e2.rows.length = e.rows.length := by
  obtain ⟨hchain, hlen, hcur, -, -, hsyn2⟩ :=
    update_row_chain cc e i t syn hg.1 e2 (chainOkW_take _ _ _ hg.2)
      (chainOkW_validEnds _ _ hg.2) h
  exact ⟨⟨by rw [hsyn2, hg.1], hchain⟩, hcur, hlen⟩

theorem insert_char_good (cc : CharClasses) (syn : SynRules) (e e2 : Editor) (ch : Char)
    (hg : GoodEd syn e) (h : insert_char cc e ch = some e2) : GoodEd syn e2 := by
  unfold insert_char at h
  split at h
  · cases h
  · dsimp only at h
    split at h
    · cases h
    · split at h
      · cases h
      · split at h
        · cases h
        · rename_i e3 hup
          injection h with h
          subst h
          have hg3 := (update_row_good cc syn _ e3 _ _ (ensure_good syn e hg) hup).1
          exact ⟨hg3.1, hg3.2⟩

theorem insert_newline_good (cc : CharClasses) (syn : SynRules) (e e2 : Editor)
    (hg : GoodEd syn e) (h : insert_newline cc e = some e2) : GoodEd syn e2 := by
  unfold insert_newline at h
  dsimp only at h
  split at h
  · cases h
  · split at h
    · cases h
    · split at h
      · cases h
      · rename_i e3 hup1
        have hg3 := (update_row_good cc syn _ e3 _ _ (ensure_good syn e hg) hup1).1
        split at h
        · cases h
        · rename_i rows3 hins
          split at h
          · cases h
          · rename_i e4 hup2
            injection h with h
            subst h
            unfold vecInsert at hins
            split at hins
            · rename_i hle
              injection hins with hins
              subst hins
              set p := fixup (ensure_line_exists e) (ensure_line_exists e).cursor with hp
              obtain ⟨hchain4, -, -, -, -, hsyn4⟩ :=
                update_row_chain cc
                  { e3 with rows := e3.rows.take (p.y + 1) ++ rowNew :: e3.rows.drop (p.y + 1) }
                  (p.y + 1) _ syn hg3.1 e4
                  (by
                    show ChainOkW none
                      ((e3.rows.take (p.y + 1) ++ rowNew :: e3.rows.drop (p.y + 1)).take (p.y + 1))
                    rw [List.take_append_of_le_length (by simp; omega), List.take_take]
                    have : min (p.y + 1) (p.y + 1) = p.y + 1 := by omega
                    rw [this]
                    exact chainOkW_take _ _ _ hg3.2)
                  (by
                    intro r hr hh hhr
                    rcases List.mem_append.mp hr with hr | hr
                    · exact chainOkW_validEnds _ _ hg3.2 r (List.mem_of_mem_take hr) hh hhr
                    · rcases List.mem_cons.mp hr with rfl | hr
                      · cases hhr
                      · exact chainOkW_validEnds _ _ hg3.2 r (List.mem_of_mem_drop hr) hh hhr)
                  hup2
              refine ⟨?_, ?_⟩
              · rw [move_cursor_to_synOpt, hsyn4]
                exact hg3.1
              · rw [move_cursor_to_rows]
                exact hchain4
            · cases hins

theorem backspace_good (cc : CharClasses) (syn : SynRules) (e e2 : Editor)
    (hg : GoodEd syn e) (h : backspace cc e = some e2) : GoodEd syn e2 := by
  have hg1 := ensure_good syn e hg
  unfold backspace at h
  dsimp only at h
  split at h
  · split at h
    · injection h with h
      subst h
      exact hg1
    · split at h
      · rename_i lower upper hlower hupper
        split at h
        · cases h
        · rename_i e3 hup
          injection h with h
          subst h
          set e1 := ensure_line_exists e with he1
          set p := fixup e1 e1.cursor with hp
          have hpy : p.y < e1.rows.length := by
            by_contra hc
            rw [List.getElem?_eq_none (by omega)] at hlower
            cases hlower
          obtain ⟨hchain3, -, -, -, -, hsyn3⟩ :=
            update_row_chain cc { e1 with rows := e1.rows.eraseIdx p.y } (p.y - 1) _
              syn hg1.1 e3
              (by
                show ChainOkW none ((e1.rows.eraseIdx p.y).take (p.y - 1))
                rw [List.eraseIdx_eq_take_drop_succ,
                    List.take_append_of_le_length (by simp; omega), List.take_take]
                have : min (p.y - 1) p.y = p.y - 1 := by omega
                rw [this]
                exact chainOkW_take _ _ _ hg1.2)
              (by
                intro r hr hh hhr
                exact chainOkW_validEnds _ _ hg1.2 r (List.mem_of_mem_eraseIdx hr) hh hhr)
              hup
          refine ⟨?_, ?_⟩
          · rw [move_cursor_to_synOpt, hsyn3]
            exact hg1.1
          · rw [move_cursor_to_rows]
            exact hchain3
      · cases h
  · split at h
    · cases h
    · split at h
      · cases h
      · split at h
        · cases h
        · rename_i e3 hup
          injection h with h
          subst h
          have hg3 := (update_row_good cc syn _ e3 _ _ hg1 hup).1
          exact ⟨by rw [move_cursor_to_synOpt]; exact hg3.1,
                 by rw [move_cursor_to_rows]; exact hg3.2⟩

theorem openBuffer_fold_good (cc : CharClasses) (syn : SynRules) (lines : List (List Char)) :
    ∀ acc e2, GoodEd syn acc →
    lines.foldlM
      (fun acc line =>
        let acc1 := { acc with rows := acc.rows ++ [rowNew] }
        update_row cc acc1 (acc1.rows.length - 1) line) acc = some e2 →
    GoodEd syn e2 := by
  induction lines with
  | nil =>
    intro acc e2 hg h
    injection h with h
    subst h
    exact hg
  | cons line rest ih =>
    intro acc e2 hg h
    rw [List.foldlM_cons] at h
    rcases hstep : update_row cc { acc with rows := acc.rows ++ [rowNew] }
        ({ acc with rows := acc.rows ++ [rowNew] }.rows.length - 1) line with _ | acc2
    · rw [hstep] at h
      cases h
    · rw [hstep] at h
      have hgacc1 : GoodEd syn { acc with rows := acc.rows ++ [rowNew] } := by
        refine ⟨hg.1, ?_⟩
        show ChainOkW none (acc.rows ++ [rowNew])
        rw [chainOkW_append]
        refine ⟨hg.2, chainOkW_all_none _ _ ?_⟩
        intro r hr
        rw [List.mem_singleton.mp hr]
        rfl
      exact ih acc2 e2 (update_row_good cc syn _ acc2 _ _ hgacc1 hstep).1 h

theorem openBuffer_good (cc : CharClasses) (syn : SynRules) (e e2 : Editor)
    (lines : List (List Char)) (hg : GoodEd syn e) (h : openBuffer cc e lines = some e2) :
    GoodEd syn e2 :=
  openBuffer_fold_good cc syn lines { e with rows := [] } e2 ⟨hg.1, trivial⟩ h

theorem applyOp_good (cc : CharClasses) (syn : SynRules) (e e2 : Editor) (op : Op)
    (hg : GoodEd syn e) (h : applyOp cc e op = some e2) : GoodEd syn e2 := by
  cases op with
  | insertChar ch => exact insert_char_good cc syn e e2 ch hg h
  | newline => exact insert_newline_good cc syn e e2 hg h
  | backspaceOp => exact backspace_good cc syn e e2 hg h
  | updateRow i t => exact (update_row_good cc syn e e2 i t hg h).1
  | openOp lines => exact openBuffer_good cc syn e e2 lines hg h
  | moveBy d =>
    injection h with h
    subst h
    exact ⟨by rw [move_cursor_by_synOpt]; exact hg.1, by rw [move_cursor_by_rows]; exact hg.2⟩
  | moveTo p =>
    injection h with h
    subst h
    exact ⟨by rw [move_cursor_to_synOpt]; exact hg.1, by rw [move_cursor_to_rows]; exact hg.2⟩

theorem applyOps_good (cc : CharClasses) (syn : SynRules) (ops : List Op) :
    ∀ e e2, GoodEd syn e → applyOps cc e ops = some e2 → GoodEd syn e2 := by
  induction ops with
  | nil =>
    intro e e2 hg h
    injection h with h
    subst h
    exact hg
  | cons op rest ih =>
    intro e e2 hg h
    rw [applyOps, List.foldlM_cons] at h
    rcases hstep : applyOp cc e op with _ | e3
    · rw [hstep] at h
      cases h
    · rw [hstep] at h
      exact ih e3 e2 (applyOp_good cc syn e e3 op hg hstep) h

/-- C2: after any sequence of buffer mutations (insert_char, insert_newline,
backspace, open, update_row — cursor moves included) starting from a state
with a configured syntax and a chained highlight cache (e.g. a fresh editor
with an empty buffer), every line `i > 0` whose cached highlight is present
starts from the previous line's `ending_state` whenever that line's highlight
is also present, and line 0's highlight, when present, was evaluated with
`carry_in = Normal`. -/
theorem claim_C2_highlight_chain (cc : CharClasses) (syn : SynRules) (e0 : Editor)
    (ops : List Op) (e2 : Editor) (hsyn : e0.synOpt = some syn)
    (hinv : ChainOkW none e0.rows) (h : applyOps cc e0 ops = some e2) :
    (∀ i r r2 hl hl2, e2.rows[i]? = some r → e2.rows[i + 1]? = some r2 →
      r.highlight = some hl → r2.highlight = some hl2 →
      hl2.initial_state = hl.ending_state) ∧
    (∀ r hl, e2.rows[0]? = some r → r.highlight = some hl →
      hl.initial_state = Highlight.Normal) := by
  have hg : GoodEd syn e2 := applyOps_good cc syn ops e0 e2 ⟨hsyn, hinv⟩ h
  constructor
  · intro i r r2 hl hl2 h1 h2 hhl hhl2
    exact chainOkW_getElem_succ e2.rows none i r r2 hl hl2 hg.2 h1 h2 hhl hhl2
  · intro r hl h0 hhl
    exact chainOkW_head e2.rows none hg.2 r h0 hl hhl

/-- Witness for C2: opening a one-line file from the fresh editor yields a
highlighted line 0 whose `initial_state` the theorem forces to `Normal`. -/
theorem claim_C2_highlight_chain_witness :
    applyOps charClasses eInit [Op.openOp [['a']]] = some eC2out ∧
    ({ highlight := [Highlight.Normal], initial_state := Highlight.Normal,
       ending_state := Highlight.Normal } : HighlightResult).initial_state
      = Highlight.Normal :=
  ⟨by decide,
   (claim_C2_highlight_chain charClasses rustRules eInit [Op.openOp [['a']]] eC2out
      rfl trivial (by decide)).2
     { text := ['a'], render := ['a'],
       highlight := some { highlight := [Highlight.Normal],
                           initial_state := Highlight.Normal,
                           ending_state := Highlight.Normal } }
     { highlight := [Highlight.Normal], initial_state := Highlight.Normal,
       ending_state := Highlight.Normal }
     (by decide) (by decide)⟩


end Kilo

